import Mathlib

/-!
Shallow embedding of the numerical core of the `midir` deformable image
registration repository, together with theorems checking the claims of the spec
against it.

Tensors are modelled as real-valued functions on natural-number indices,
with explicit size parameters; a tensor of shape `(N, C, H, W)` becomes a
function `ℕ → ℕ → ℕ → ℕ → ℝ` whose values only matter on indices below the
sizes.  Reductions (`torch.sum`, `torch.mean`) become `Finset.range` sums,
`torch.mean` dividing by the element count.  All arithmetic is exact real
arithmetic.
-/

set_option maxHeartbeats 1000000

noncomputable section

open scoped Classical
open scoped BigOperators

/-! ## `model/losses.py` : pseudo-Huber smoothness losses -/

/-- Per-pixel flow magnitude `torch.norm(flow, dim=1)` for a flow of shape
`(N, 2, H, W)` (`model/losses.py`, lines 25 and 55). -/
def flowNorm (flow : ℕ → ℕ → ℕ → ℕ → ℝ) (n h w : ℕ) : ℝ :=
  Real.sqrt (∑ c ∈ Finset.range 2, flow n c h w ^ 2)

/-- `huber_loss_spatial` (`model/losses.py` lines 12-37): first-order spatial
finite differences of the flow magnitude, squared and summed over space,
`sqrt(eps + ·)` with `eps = 0.01`, then the mean over the batch. -/
def huber_loss_spatial (N H W : ℕ) (flow : ℕ → ℕ → ℕ → ℕ → ℝ) : ℝ :=
  (∑ n ∈ Finset.range N,
      Real.sqrt (0.01 +
        ∑ h ∈ Finset.range (H - 1), ∑ w ∈ Finset.range (W - 1),
          ((flowNorm flow n (h + 1) w - flowNorm flow n h w) ^ 2 +
           (flowNorm flow n h (w + 1) - flowNorm flow n h w) ^ 2))) / N

/-- `huber_loss_temporal` (`model/losses.py` lines 40-59): first-order finite
difference of the flow magnitude along the batch/temporal axis, total sum of
squares, `sqrt(eps + ·)` with `eps = 0.01` and no batch mean. -/
def huber_loss_temporal (N H W : ℕ) (flow : ℕ → ℕ → ℕ → ℕ → ℝ) : ℝ :=
  Real.sqrt (0.01 +
    ∑ n ∈ Finset.range (N - 1), ∑ h ∈ Finset.range H, ∑ w ∈ Finset.range W,
      (flowNorm flow (n + 1) h w - flowNorm flow n h w) ^ 2)

/-! ## `model/loss/sim_loss.py` : `MILossGaussian` -/

/-- Gaussian kernel bandwidth set in `MILossGaussian.__init__` (lines 33-35):
`bin_width = (vmax - vmin) / num_bins`, `sigma = bin_width / (2 sqrt(2 ln 2))`. -/
def miSigma (vmin vmax : ℝ) (B : ℕ) : ℝ :=
  ((vmax - vmin) / B) * (1 / (2 * Real.sqrt (2 * Real.log 2)))

/-- Bin centres set in `MILossGaussian.__init__` (line 39):
`torch.linspace(vmin, vmax, num_bins)`, i.e. `vmin + b (vmax - vmin)/(num_bins - 1)`
(for `num_bins = 1` torch returns `vmin`, as does this formula since `x / 0 = 0`). -/
def miBins (vmin vmax : ℝ) (B : ℕ) (b : ℕ) : ℝ :=
  vmin + (vmax - vmin) * b / (B - 1 : ℕ)

/-- Parzen window response of one voxel value against one bin
(`MILossGaussian._compute_joint_prob`, lines 56-57):
`exp(-(v - bins_b)^2 / (2 sigma^2)) / sqrt(2 pi) * sigma`. -/
def gaussWin (sigma : ℝ) (bins : ℕ → ℝ) (v : ℝ) (b : ℕ) : ℝ :=
  Real.exp (-(v - bins b) ^ 2 / (2 * sigma ^ 2)) / Real.sqrt (2 * Real.pi) * sigma

/-- Joint histogram of one batch sample, `win_x.bmm(win_y.transpose(1,2))`
(line 60); the voxels of the sample are indexed by the finite set `s`. -/
def miHistJoint (sigma : ℝ) (bins : ℕ → ℝ) {ι : Type} (s : Finset ι)
    (x y : ι → ℝ) (b1 b2 : ℕ) : ℝ :=
  ∑ k ∈ s, gaussWin sigma bins (x k) b1 * gaussWin sigma bins (y k) b2

/-- Total mass of the joint histogram of one sample (line 63, before `+ 1e-10`). -/
def miHistMass (sigma : ℝ) (bins : ℕ → ℝ) (B : ℕ) {ι : Type} (s : Finset ι)
    (x y : ι → ℝ) : ℝ :=
  ∑ b1 ∈ Finset.range B, ∑ b2 ∈ Finset.range B, miHistJoint sigma bins s x y b1 b2

/-- Normalised joint probability table `p_joint = hist_joint / (hist mass + 1e-10)`
(lines 63-64). -/
def miPJoint (sigma : ℝ) (bins : ℕ → ℝ) (B : ℕ) {ι : Type} (s : Finset ι)
    (x y : ι → ℝ) (b1 b2 : ℕ) : ℝ :=
  miHistJoint sigma bins s x y b1 b2 / (miHistMass sigma bins B s x y + 1e-10)

/-- Marginal over the source bins, `p_x = p_joint.sum(dim=2)` (line 100). -/
def miMargX (sigma : ℝ) (bins : ℕ → ℝ) (B : ℕ) {ι : Type} (s : Finset ι)
    (x y : ι → ℝ) (b1 : ℕ) : ℝ :=
  ∑ b2 ∈ Finset.range B, miPJoint sigma bins B s x y b1 b2

/-- Marginal over the target bins, `p_y = p_joint.sum(dim=1)` (line 101). -/
def miMargY (sigma : ℝ) (bins : ℕ → ℝ) (B : ℕ) {ι : Type} (s : Finset ι)
    (x y : ι → ℝ) (b2 : ℕ) : ℝ :=
  ∑ b1 ∈ Finset.range B, miPJoint sigma bins B s x y b1 b2

/-- Epsilon-guarded marginal entropy `ent_x = -sum(p_x * log(p_x + 1e-10))`
(line 104). -/
def miEntX (sigma : ℝ) (bins : ℕ → ℝ) (B : ℕ) {ι : Type} (s : Finset ι)
    (x y : ι → ℝ) : ℝ :=
  -∑ b1 ∈ Finset.range B,
    miMargX sigma bins B s x y b1 * Real.log (miMargX sigma bins B s x y b1 + 1e-10)

/-- Epsilon-guarded marginal entropy `ent_y` (line 105). -/
def miEntY (sigma : ℝ) (bins : ℕ → ℝ) (B : ℕ) {ι : Type} (s : Finset ι)
    (x y : ι → ℝ) : ℝ :=
  -∑ b2 ∈ Finset.range B,
    miMargY sigma bins B s x y b2 * Real.log (miMargY sigma bins B s x y b2 + 1e-10)

/-- Epsilon-guarded joint entropy `ent_joint` (line 106). -/
def miEntJoint (sigma : ℝ) (bins : ℕ → ℝ) (B : ℕ) {ι : Type} (s : Finset ι)
    (x y : ι → ℝ) : ℝ :=
  -∑ b1 ∈ Finset.range B, ∑ b2 ∈ Finset.range B,
    miPJoint sigma bins B s x y b1 b2 * Real.log (miPJoint sigma bins B s x y b1 b2 + 1e-10)

/-- Modelled from the spec: `utils.image.avg_filtering` (not under `src/`) is a
box-filtered average with `filter_size = 7`; here over a 1-D spatial axis of
length `K`, zero padding `3`, unit stride, divided by the filter size. -/
def avg_filtering1d (K : ℕ) (f : ℕ → ℝ) (k : ℕ) : ℝ :=
  (∑ j ∈ Finset.range 7, if 3 ≤ k + j ∧ k + j - 3 < K then f (k + j - 3) else 0) / 7

/-- Smoothed average image used by the ROI branch (`sim_loss.py` lines 85-87):
`avg_filtering((x + y)/2, filter_size=7)`, evaluated per batch sample. -/
def roiMaskVal (K : ℕ) (x y : ℕ → ℕ → ℝ) (n k : ℕ) : ℝ :=
  avg_filtering1d K (fun j => (x n j + y n j) / 2) k

/-- Index set selected by `torch.masked_select` in the ROI branch (lines 87-90):
all `(sample, voxel)` pairs whose smoothed average exceeds `roi_threshold`;
the whole batch is pooled into one vector. -/
def roiSet (roiT : ℝ) (N K : ℕ) (x y : ℕ → ℕ → ℝ) : Finset (ℕ × ℕ) :=
  (Finset.range N ×ˢ Finset.range K).filter (fun p => roiT < roiMaskVal K x y p.1 p.2)

/-- `MILossGaussian.forward` (lines 68-110) with the construction-dependent
`sigma` and `bins` passed explicitly.  Inputs are modelled with the channel
dimension already squeezed (the module is used with `channel = 1`), each batch
sample being `K` flattened voxels.  With `roi = true` both inputs are masked by
the shared mask and pooled into a single batch sample; with `roi = false` the
per-sample joint distributions are used and the mean runs over the `N` batch
samples. -/
def miForwardCore (sigma : ℝ) (bins : ℕ → ℝ) (B : ℕ) (roi : Bool) (roiT : ℝ)
    (normalised : Bool) (N K : ℕ) (x y : ℕ → ℕ → ℝ) : ℝ :=
  if roi then
    -- the masked-selected voxels of the whole batch are pooled into a
    -- single sample, used for both inputs
    if normalised then
      -((∑ _n ∈ Finset.range 1,
          (miEntX sigma bins B (roiSet roiT N K x y) (fun p => x p.1 p.2) (fun p => y p.1 p.2) +
            miEntY sigma bins B (roiSet roiT N K x y) (fun p => x p.1 p.2) (fun p => y p.1 p.2)) /
            miEntJoint sigma bins B (roiSet roiT N K x y) (fun p => x p.1 p.2) (fun p => y p.1 p.2)) / (1 : ℕ))
    else
      -((∑ _n ∈ Finset.range 1,
          (miEntX sigma bins B (roiSet roiT N K x y) (fun p => x p.1 p.2) (fun p => y p.1 p.2) +
            miEntY sigma bins B (roiSet roiT N K x y) (fun p => x p.1 p.2) (fun p => y p.1 p.2) -
            miEntJoint sigma bins B (roiSet roiT N K x y) (fun p => x p.1 p.2) (fun p => y p.1 p.2))) / (1 : ℕ))
  else
    if normalised then
      -((∑ n ∈ Finset.range N,
          (miEntX sigma bins B (Finset.range K) (x n) (y n) +
            miEntY sigma bins B (Finset.range K) (x n) (y n)) /
            miEntJoint sigma bins B (Finset.range K) (x n) (y n)) / (N : ℕ))
    else
      -((∑ n ∈ Finset.range N,
          (miEntX sigma bins B (Finset.range K) (x n) (y n) +
            miEntY sigma bins B (Finset.range K) (x n) (y n) -
            miEntJoint sigma bins B (Finset.range K) (x n) (y n))) / (N : ℕ))

/-- `MILossGaussian.forward` of a module constructed with
`MILossGaussian(vmin, vmax, num_bins, roi, roi_threshold, normalised)`. -/
def MILossGaussian_forward (vmin vmax : ℝ) (B : ℕ) (roi : Bool) (roiT : ℝ)
    (normalised : Bool) (N K : ℕ) (x y : ℕ → ℕ → ℝ) : ℝ :=
  miForwardCore (miSigma vmin vmax B) (miBins vmin vmax B) B roi roiT normalised N K x y

/-! ### Spec-side formulation of the MI loss (section 4.3 of the spec) -/

/-- Spec-side epsilon-guarded entropy of a distribution on `B` bins. -/
def entropy_spec (B : ℕ) (p : ℕ → ℝ) : ℝ :=
  -∑ b ∈ Finset.range B, p b * Real.log (p b + 1e-10)

/-- Spec-side epsilon-guarded entropy of a joint table on `B × B` bins. -/
def jointEntropy_spec (B : ℕ) (pj : ℕ → ℕ → ℝ) : ℝ :=
  -∑ b1 ∈ Finset.range B, ∑ b2 ∈ Finset.range B,
    pj b1 b2 * Real.log (pj b1 b2 + 1e-10)

/-- Spec-side target marginal: marginalise the joint table over its rows. -/
def rowMarg_spec (B : ℕ) (pj : ℕ → ℕ → ℝ) (b1 : ℕ) : ℝ :=
  ∑ b2 ∈ Finset.range B, pj b1 b2

/-- Spec-side source marginal: marginalise the joint table over its columns. -/
def colMarg_spec (B : ℕ) (pj : ℕ → ℕ → ℝ) (b2 : ℕ) : ℝ :=
  ∑ b1 ∈ Finset.range B, pj b1 b2

/-- Spec-side per-sample mutual-information term computed from a joint
probability table: `(H_target + H_source) / H_joint` when normalised, else
`H_target + H_source - H_joint`, every entropy epsilon-guarded. -/
def miValue_spec (normalised : Bool) (B : ℕ) (pj : ℕ → ℕ → ℝ) : ℝ :=
  if normalised then
    (entropy_spec B (rowMarg_spec B pj) + entropy_spec B (colMarg_spec B pj)) /
      jointEntropy_spec B pj
  else
    entropy_spec B (rowMarg_spec B pj) + entropy_spec B (colMarg_spec B pj) -
      jointEntropy_spec B pj

/-! ## Module state of `MILossGaussian` (for the frame/effect claim) -/

/-- Value-level state of a `MILossGaussian` module: the fields assigned in
`__init__` (lines 28-45). -/
structure MIGaussState where
  vmin : ℝ
  vmax : ℝ
  sigma : ℝ
  num_bins : ℕ
  bins : ℕ → ℝ
  roi : Bool
  roi_threshold : ℝ
  normalised : Bool

/-- `MILossGaussian.__init__(vmin, vmax, num_bins, roi, roi_threshold,
normalised)` (lines 20-45). -/
def MIGauss_init (vmin vmax : ℝ) (B : ℕ) (roi : Bool) (roiT : ℝ)
    (normalised : Bool) : MIGaussState :=
  ⟨vmin, vmax, miSigma vmin vmax B, B, miBins vmin vmax B, roi, roiT, normalised⟩

/-- State-passing `MILossGaussian.forward`: the only assignment to the module
during a call is `self.bins = self.bins.type_as(x)` (line 53), a dtype/device
cast that preserves the values of the buffer, so at value level the bins field is
re-bound to itself. -/
def MIGauss_forward (st : MIGaussState) (N K : ℕ) (x y : ℕ → ℕ → ℝ) :
    ℝ × MIGaussState :=
  (miForwardCore st.sigma st.bins st.num_bins st.roi st.roi_threshold st.normalised N K x y,
    { st with bins := st.bins })

/-! ## `model/loss/sim_loss.py` : `MILossBSpline` -/

/-- Modelled from the spec: `model/loss/window_func.py` `cubic_bspline_torch`
(not under `src/`), the standard cubic B-spline Parzen window. -/
def cubic_bspline (v : ℝ) : ℝ :=
  if |v| < 1 then 2 / 3 - v ^ 2 + |v| ^ 3 / 2
  else if |v| < 2 then (2 - |v|) ^ 3 / 6
  else 0

/-- Modelled from the spec: `model/loss/window_func.py` `rect_window_torch`
(not under `src/`), the rectangle Parzen window. -/
def rect_window (v : ℝ) : ℝ :=
  if |v| ≤ 1 / 2 then 1 else 0

/-- `MILossBSpline._parzen_window_1d` (lines 216-222); an unrecognised window
name raises, modelled here as the zero window (never reached by the claims). -/
def parzen_window_1d (window : String) (v : ℝ) : ℝ :=
  if window = ("cubic_bspline") then cubic_bspline v
  else if window = ("rectangle") then rect_window v
  else 0

/-- Minimum entry of the first `K` values of `f` (`K > 0` intended). -/
def vecMin (K : ℕ) (f : ℕ → ℝ) : ℝ :=
  (List.range K).foldr (fun k m => min (f k) m) (f 0)

/-- Maximum entry of the first `K` values of `f` (`K > 0` intended). -/
def vecMax (K : ℕ) (f : ℕ → ℝ) : ℝ :=
  (List.range K).foldr (fun k m => max (f k) m) (f 0)

/-- Modelled from the spec: `utils.image.normalise_intensity` in `minmax` mode
(not under `src/`) rescales a sample linearly so its minimum maps to `min_out`
and its maximum to `max_out`. -/
def normalise_intensity (K : ℕ) (min_out max_out : ℝ) (f : ℕ → ℝ) (k : ℕ) : ℝ :=
  (f k - vecMin K f) / (vecMax K f - vecMin K f) * (max_out - min_out) + min_out

/-- Value-level state of a `MILossBSpline` module (fields assigned in
`__init__`, lines 165-213); the debug fields hold `none` until (and unless)
a debug-mode forward call stores into them. -/
structure MIBSplineState where
  debug : Bool
  normalised : Bool
  window : String
  target_min : ℝ
  target_max : ℝ
  source_min : ℝ
  source_max : ℝ
  num_bins_target : ℕ
  num_bins_source : ℕ
  bin_width_target : ℝ
  bin_width_source : ℝ
  bins_target : ℕ → ℝ
  bins_source : ℕ → ℝ
  eps_target : ℝ
  eps_source : ℝ
  histogram_joint : Option (ℕ → ℕ → ℕ → ℝ)
  p_joint : Option (ℕ → ℕ → ℕ → ℝ)
  p_target : Option (ℕ → ℕ → ℝ)
  p_source : Option (ℕ → ℕ → ℝ)

/-- `MILossBSpline.__init__` (lines 165-213): `arange`-based bin edges
`b * bin_width + min`, kernel width parameters `eps = c * bin_width`, debug
fields initialised empty. -/
def MIBSpline_init (tmin tmax smin smax : ℝ) (Bt Bs : ℕ) (ct cs : ℝ)
    (normalised : Bool) (window : String) (debug : Bool) : MIBSplineState :=
  { debug := debug
    normalised := normalised
    window := window
    target_min := tmin
    target_max := tmax
    source_min := smin
    source_max := smax
    num_bins_target := Bt
    num_bins_source := Bs
    bin_width_target := (tmax - tmin) / Bt
    bin_width_source := (smax - smin) / Bs
    bins_target := fun b => b * ((tmax - tmin) / Bt) + tmin
    bins_source := fun b => b * ((smax - smin) / Bs) + smin
    eps_target := ct * ((tmax - tmin) / Bt)
    eps_source := cs * ((smax - smin) / Bs)
    histogram_joint := none
    p_joint := none
    p_target := none
    p_source := none }

/-- State-passing `MILossBSpline.forward` (lines 224-296): min-max intensity
normalisation per sample, cubic-B-spline (or rectangle) Parzen histograms,
joint/marginal distributions, epsilon-guarded entropies (`1e-12`), the
`(normalised) MI` loss, and — when `debug` — storage of the joint histogram
and the distributions on the module.  Inputs are single-channel images with
`N` batch samples of `K` voxels. -/
def MIBSpline_forward (st : MIBSplineState) (N K : ℕ)
    (target source : ℕ → ℕ → ℝ) : ℝ × MIBSplineState :=
  let tN : ℕ → ℕ → ℝ := fun n => normalise_intensity K st.target_min st.target_max (target n)
  let sN : ℕ → ℕ → ℝ := fun n => normalise_intensity K st.source_min st.source_max (source n)
  let Wt : ℕ → ℕ → ℕ → ℝ := fun n b k =>
    parzen_window_1d st.window ((st.bins_target b - tN n k) / st.eps_target)
  let Ws : ℕ → ℕ → ℕ → ℝ := fun n b k =>
    parzen_window_1d st.window ((st.bins_source b - sN n k) / st.eps_source)
  let hist : ℕ → ℕ → ℕ → ℝ := fun n b1 b2 =>
    (∑ k ∈ Finset.range K, Wt n b1 k * Ws n b2 k) / (st.eps_target * st.eps_source)
  let histNorm : ℕ → ℝ := fun n =>
    ∑ b1 ∈ Finset.range st.num_bins_target, ∑ b2 ∈ Finset.range st.num_bins_source,
      hist n b1 b2
  let pj : ℕ → ℕ → ℕ → ℝ := fun n b1 b2 => hist n b1 b2 / histNorm n
  let pt : ℕ → ℕ → ℝ := fun n b1 => ∑ b2 ∈ Finset.range st.num_bins_source, pj n b1 b2
  let ps : ℕ → ℕ → ℝ := fun n b2 => ∑ b1 ∈ Finset.range st.num_bins_target, pj n b1 b2
  let entT : ℕ → ℝ := fun n =>
    -∑ b ∈ Finset.range st.num_bins_target, pt n b * Real.log (pt n b + 1e-12)
  let entS : ℕ → ℝ := fun n =>
    -∑ b ∈ Finset.range st.num_bins_source, ps n b * Real.log (ps n b + 1e-12)
  let entJ : ℕ → ℝ := fun n =>
    -∑ b1 ∈ Finset.range st.num_bins_target, ∑ b2 ∈ Finset.range st.num_bins_source,
      pj n b1 b2 * Real.log (pj n b1 b2 + 1e-12)
  let loss : ℝ :=
    if st.normalised then -((∑ n ∈ Finset.range N, (entT n + entS n) / entJ n) / (N : ℕ))
    else -((∑ n ∈ Finset.range N, (entT n + entS n - entJ n)) / (N : ℕ))
  let st' : MIBSplineState :=
    if st.debug then
      { st with histogram_joint := some hist, p_joint := some pj,
                p_target := some pt, p_source := some ps }
    else st
  (loss, st')

/-! ## `model/loss/sim_loss.py` : `LNCCLoss` -/

/-- Modelled from the spec: `utils.misc.param_dim_setup` (not under `src/`)
expands a scalar window size to one size per spatial axis. -/
def param_dim_setup (ws : ℕ) (d : ℕ) : Fin d → ℕ := fun _ => ws

/-- Zero-padded access of a `d`-dimensional volume of spatial sizes `s` at an
integer coordinate (the implicit zero padding of `F.conv{d}d`). -/
def padded {d : ℕ} (s : Fin d → ℕ) (t : (Fin d → ℕ) → ℝ) (z : Fin d → ℤ) : ℝ :=
  if ∀ i, 0 ≤ z i ∧ z i < (s i : ℤ) then t (fun i => (z i).toNat) else 0

/-- The window index box `∏ i [0, w i)`. -/
def winBox {d : ℕ} (w : Fin d → ℕ) : Finset (Fin d → ℕ) :=
  Fintype.piFinset (fun i => Finset.range (w i))

/-- Input coordinate reached from output position `o` by window offset `f`
under per-axis padding `floor(w i / 2)` and unit stride. -/
def shiftIdx {d : ℕ} (w : Fin d → ℕ) (o f : Fin d → ℕ) : Fin d → ℤ :=
  fun i => (o i : ℤ) + (f i : ℤ) - ((w i / 2 : ℕ) : ℤ)

/-- Unit-kernel box-filter convolution with stride 1 and per-axis padding
`floor(w i / 2)` (`LNCCLoss.forward`, lines 138-153): the local sum of the
input over the window anchored at output position `o`. -/
def boxConv {d : ℕ} (s w : Fin d → ℕ) (t : (Fin d → ℕ) → ℝ) (o : Fin d → ℕ) : ℝ :=
  ∑ f ∈ winBox w, padded s t (shiftIdx w o f)

/-- Output size per axis of that convolution: `s + 2 * floor(w/2) - w + 1`
(equals `s` for odd `w`). -/
def outSize {d : ℕ} (s w : Fin d → ℕ) (i : Fin d) : ℕ :=
  s i + (2 * (w i / 2) + 1 - w i)

/-- The output position box of the convolution. -/
def outBox {d : ℕ} (s w : Fin d → ℕ) : Finset (Fin d → ℕ) :=
  Fintype.piFinset (fun i => Finset.range (outSize s w i))

/-- `window_num_points = np.prod(window_size)` (line 155). -/
def winNumPoints {d : ℕ} (w : Fin d → ℕ) : ℕ := ∏ i, w i

/-- Local mean `mu = sum / window_num_points` (lines 156-157). -/
def convMu {d : ℕ} (s w : Fin d → ℕ) (t : (Fin d → ℕ) → ℝ) (o : Fin d → ℕ) : ℝ :=
  boxConv s w t o / (winNumPoints w : ℕ)

/-- Local covariance
`cov = tar_src_sum - mu_src * tar_sum - mu_tar * src_sum + mu_tar * mu_src * N`
(line 159). -/
def convCov {d : ℕ} (s w : Fin d → ℕ) (t u : (Fin d → ℕ) → ℝ) (o : Fin d → ℕ) : ℝ :=
  boxConv s w (fun p => t p * u p) o - convMu s w u o * boxConv s w t o -
    convMu s w t o * boxConv s w u o + convMu s w t o * convMu s w u o * (winNumPoints w : ℕ)

/-- Local variance `var = t2_sum - 2 * mu * t_sum + mu * mu * N`
(lines 160-161). -/
def convVar {d : ℕ} (s w : Fin d → ℕ) (t : (Fin d → ℕ) → ℝ) (o : Fin d → ℕ) : ℝ :=
  boxConv s w (fun p => t p * t p) o - 2 * convMu s w t o * boxConv s w t o +
    convMu s w t o * convMu s w t o * (winNumPoints w : ℕ)

/-- Per-voxel LNCC score `cov * cov / (tar_var * src_var + 1e-5)` (line 163). -/
def lnccScore {d : ℕ} (s w : Fin d → ℕ) (t u : (Fin d → ℕ) → ℝ) (o : Fin d → ℕ) : ℝ :=
  convCov s w t u o * convCov s w t u o / (convVar s w t o * convVar s w u o + 1e-5)

/-- `LNCCLoss.forward` (lines 123-165): the negated mean of the per-voxel
score over all output voxels and batch samples, with per-axis window sizes
`w` (a scalar configured window is expanded by `param_dim_setup`). -/
def LNCCLoss_forward (d : ℕ) (s w : Fin d → ℕ) (N : ℕ)
    (tar src : ℕ → (Fin d → ℕ) → ℝ) : ℝ :=
  -((∑ n ∈ Finset.range N, ∑ o ∈ outBox s w, lnccScore s w (tar n) (src n) o) /
      ((N * (outBox s w).card : ℕ) : ℝ))

/-! ### Spec-side formulation of the LNCC loss (section 4.4 of the spec) -/

/-- Spec-side per-voxel LNCC score, following the wording of the spec: local sums
by the box filter, local means, covariance `Σ(ts) - μs Σt - μt Σs + μt μs N`,
variances "analogously", score `cov² / (var_t var_s + ε)` with `ε = 1e-5`. -/
def lnccScore_spec {d : ℕ} (s w : Fin d → ℕ) (t u : (Fin d → ℕ) → ℝ)
    (o : Fin d → ℕ) : ℝ :=
  (boxConv s w (fun p => t p * u p) o -
      (boxConv s w u o / (winNumPoints w : ℕ)) * boxConv s w t o -
      (boxConv s w t o / (winNumPoints w : ℕ)) * boxConv s w u o +
      (boxConv s w t o / (winNumPoints w : ℕ)) *
        (boxConv s w u o / (winNumPoints w : ℕ)) * (winNumPoints w : ℕ)) ^ 2 /
    ((boxConv s w (fun p => t p * t p) o -
        (boxConv s w t o / (winNumPoints w : ℕ)) * boxConv s w t o -
        (boxConv s w t o / (winNumPoints w : ℕ)) * boxConv s w t o +
        (boxConv s w t o / (winNumPoints w : ℕ)) *
          (boxConv s w t o / (winNumPoints w : ℕ)) * (winNumPoints w : ℕ)) *
      (boxConv s w (fun p => u p * u p) o -
        (boxConv s w u o / (winNumPoints w : ℕ)) * boxConv s w u o -
        (boxConv s w u o / (winNumPoints w : ℕ)) * boxConv s w u o +
        (boxConv s w u o / (winNumPoints w : ℕ)) *
          (boxConv s w u o / (winNumPoints w : ℕ)) * (winNumPoints w : ℕ)) + 1e-5)

/-- Spec-side LNCC loss: negated mean of the spec-side score over all output
voxels and batch samples. -/
def LNCC_spec (d : ℕ) (s w : Fin d → ℕ) (N : ℕ)
    (tar src : ℕ → (Fin d → ℕ) → ℝ) : ℝ :=
  -((∑ n ∈ Finset.range N, ∑ o ∈ outBox s w, lnccScore_spec s w (tar n) (src n) o) /
      ((N * (outBox s w).card : ℕ) : ℝ))

/-! ## `model/models.py` : `DLRegModel` construction -/

/-- The configuration fields of `params` read during `DLRegModel` construction. -/
structure ModelParams where
  network : String
  transformation : String
  dim : ℕ
  enc_channels : List ℕ
  dec_channels : List ℕ
  out_channels : ℕ
  crop_size : List ℕ
  ffd_sigma : ℕ

/-- The closed set of networks `_set_network` can select (the network classes
live in `model/networks`, outside the scope of the spec; only their selection and
configuration matter here). -/
inductive NetworkM : Type
  | siameseNet : NetworkM
  | unet (dim : ℕ) (enc dec : List ℕ) (out : ℕ) : NetworkM
  | siameseNetFFD : NetworkM
  | ffdNet (dim : ℕ) (img_size : List ℕ) (cpt_spacing : ℕ) (enc : List ℕ) (out : ℕ) : NetworkM

/-- The closed set of transformation models `_set_transformation_model` can
select. -/
inductive TransformM : Type
  | dvf : TransformM
  | bsplineFFD (dim : ℕ) (img_size : List ℕ) (sigma : ℕ) : TransformM

/-- `DLRegModel._set_network` (lines 25-47): string-keyed selection with a
`ValueError` (modelled as `Except.error`) for unrecognised names. -/
def set_network (p : ModelParams) : Except String NetworkM :=
  if p.network = ("SiameseNetDVF") then Except.ok NetworkM.siameseNet
  else if p.network = ("UNetDVF") then
    Except.ok (NetworkM.unet p.dim p.enc_channels p.dec_channels p.out_channels)
  else if p.network = ("SiameseNetFFD") then Except.ok NetworkM.siameseNetFFD
  else if p.network = ("FFDNet") then
    Except.ok (NetworkM.ffdNet p.dim p.crop_size p.ffd_sigma p.enc_channels p.out_channels)
  else Except.error ("Model: Network not recognised")

/-- `DLRegModel._set_transformation_model` (lines 50-59). -/
def set_transformation_model (p : ModelParams) : Except String TransformM :=
  if p.transformation = ("DVF") then Except.ok TransformM.dvf
  else if p.transformation = ("FFD") then
    Except.ok (TransformM.bsplineFFD p.dim p.crop_size p.ffd_sigma)
  else Except.error ("Model: Transformation model not recognised")

/-- The state a successfully constructed `DLRegModel` holds. -/
structure DLRegModelS where
  epoch_num : ℕ
  iter_num : ℕ
  is_best : Bool
  best_metric_result : ℝ
  network : NetworkM
  transform : TransformM

/-- `DLRegModel.__init__` (lines 9-22): initialise the recording variables,
then `_set_network` and `_set_transformation_model`; any `ValueError` raised
there aborts construction. -/
def DLRegModel_init (p : ModelParams) : Except String DLRegModelS :=
  match set_network p with
  | Except.error e => Except.error e
  | Except.ok net =>
    match set_transformation_model p with
    | Except.error e => Except.error e
    | Except.ok tr => Except.ok ⟨0, 0, false, 0, net, tr⟩

/-! ## Theorems -/

theorem miHistJoint_symm (sigma : ℝ) (bins : ℕ → ℝ) {ι : Type} (s : Finset ι)
    (x y : ι → ℝ) (b1 b2 : ℕ) :
    miHistJoint sigma bins s x y b1 b2 = miHistJoint sigma bins s y x b2 b1 := by
  unfold miHistJoint
  exact Finset.sum_congr rfl fun k _ => mul_comm _ _

theorem miHistMass_symm (sigma : ℝ) (bins : ℕ → ℝ) (B : ℕ) {ι : Type} (s : Finset ι)
    (x y : ι → ℝ) :
    miHistMass sigma bins B s x y = miHistMass sigma bins B s y x := by
  unfold miHistMass
  rw [Finset.sum_comm]
  exact Finset.sum_congr rfl fun b2 _ => Finset.sum_congr rfl fun b1 _ =>
    miHistJoint_symm sigma bins s x y b1 b2

theorem miPJoint_symm (sigma : ℝ) (bins : ℕ → ℝ) (B : ℕ) {ι : Type} (s : Finset ι)
    (x y : ι → ℝ) (b1 b2 : ℕ) :
    miPJoint sigma bins B s x y b1 b2 = miPJoint sigma bins B s y x b2 b1 := by
  unfold miPJoint
  rw [miHistJoint_symm, miHistMass_symm]

theorem miEntX_symm (sigma : ℝ) (bins : ℕ → ℝ) (B : ℕ) {ι : Type} (s : Finset ι)
    (x y : ι → ℝ) :
    miEntX sigma bins B s x y = miEntY sigma bins B s y x := by
  unfold miEntX miEntY
  congr 1
  refine Finset.sum_congr rfl fun b1 _ => ?_
  have h : miMargX sigma bins B s x y b1 = miMargY sigma bins B s y x b1 := by
    unfold miMargX miMargY
    exact Finset.sum_congr rfl fun b2 _ => miPJoint_symm sigma bins B s x y b1 b2
  rw [h]

theorem miEntJoint_symm (sigma : ℝ) (bins : ℕ → ℝ) (B : ℕ) {ι : Type} (s : Finset ι)
    (x y : ι → ℝ) :
    miEntJoint sigma bins B s x y = miEntJoint sigma bins B s y x := by
  unfold miEntJoint
  congr 1
  rw [Finset.sum_comm]
  exact Finset.sum_congr rfl fun b2 _ => Finset.sum_congr rfl fun b1 _ => by
    rw [miPJoint_symm]

theorem roiMaskVal_symm (K : ℕ) (x y : ℕ → ℕ → ℝ) (n k : ℕ) :
    roiMaskVal K x y n k = roiMaskVal K y x n k := by
  unfold roiMaskVal
  congr 1
  funext j
  ring

theorem roiSet_symm (roiT : ℝ) (N K : ℕ) (x y : ℕ → ℕ → ℝ) :
    roiSet roiT N K x y = roiSet roiT N K y x := by
  unfold roiSet
  exact Finset.filter_congr fun p _ => by rw [roiMaskVal_symm]

theorem sqrt_hundredth : Real.sqrt 0.01 = 1 / 10 := by
  rw [show (0.01 : ℝ) = (1 / 10) ^ 2 by norm_num, Real.sqrt_sq (by norm_num)]

/-- The claim as stated is false: on a spatially-constant field the spatial
pseudo-Huber loss evaluates to `sqrt(0.01) = 0.1`, not `0`; likewise the
temporal loss on a batch-constant field.  Concretely, the all-zero flow of
shape `(1, 2, 1, 1)` gives `0.1` for both losses. -/
theorem huber_zero_flow_counterexample :
    huber_loss_spatial 1 1 1 (fun _ _ _ _ => 0) ≠ 0 ∧
    huber_loss_temporal 1 1 1 (fun _ _ _ _ => 0) ≠ 0 := by
  have hs : huber_loss_spatial 1 1 1 (fun _ _ _ _ => 0) = 1 / 10 := by
    unfold huber_loss_spatial
    simp [sqrt_hundredth]
  have ht : huber_loss_temporal 1 1 1 (fun _ _ _ _ => 0) = 1 / 10 := by
    unfold huber_loss_temporal
    simp [sqrt_hundredth]
  rw [hs, ht]
  norm_num

/-- Amended claim C2: for a flow that is constant over the spatial axes the
spatial pseudo-Huber loss equals exactly `sqrt(0.01) = 0.1` (not `0`), and for
a flow constant along the batch/temporal axis the temporal loss equals exactly
`0.1`; moreover both losses are strictly positive for every flow (in
particular for any flow with nonzero first-order difference). -/
theorem huber_loss_const_amended (N H W : ℕ) (hN : 0 < N)
    (g : ℕ → ℕ → ℝ) (g2 : ℕ → ℕ → ℕ → ℝ) (flow flow2 : ℕ → ℕ → ℕ → ℕ → ℝ)
    (hflow : ∀ n c h w, flow n c h w = g n c)
    (hflow2 : ∀ n c h w, flow2 n c h w = g2 c h w) :
    huber_loss_spatial N H W flow = 1 / 10 ∧
    huber_loss_temporal N H W flow2 = 1 / 10 ∧
    (∀ f, 0 < huber_loss_spatial N H W f) ∧
    (∀ f, 0 < huber_loss_temporal N H W f) := by
  have hnorm : ∀ n h w, flowNorm flow n h w = Real.sqrt (∑ c ∈ Finset.range 2, g n c ^ 2) := by
    intro n h w
    unfold flowNorm
    simp only [hflow]
  have hnorm2 : ∀ n h w, flowNorm flow2 n h w = Real.sqrt (∑ c ∈ Finset.range 2, g2 c h w ^ 2) := by
    intro n h w
    unfold flowNorm
    simp only [hflow2]
  refine ⟨?_, ?_, ?_, ?_⟩
  · unfold huber_loss_spatial
    have hz : ∀ n ∈ Finset.range N,
        Real.sqrt (0.01 +
          ∑ h ∈ Finset.range (H - 1), ∑ w ∈ Finset.range (W - 1),
            ((flowNorm flow n (h + 1) w - flowNorm flow n h w) ^ 2 +
             (flowNorm flow n h (w + 1) - flowNorm flow n h w) ^ 2)) = 1 / 10 := by
      intro n _
      have : ∀ h ∈ Finset.range (H - 1), ∀ w ∈ Finset.range (W - 1),
          ((flowNorm flow n (h + 1) w - flowNorm flow n h w) ^ 2 +
           (flowNorm flow n h (w + 1) - flowNorm flow n h w) ^ 2) = 0 := by
        intro h _ w _
        rw [hnorm, hnorm, hnorm]
        ring
      rw [Finset.sum_congr rfl fun h hh => Finset.sum_congr rfl fun w hw => this h hh w hw]
      simpa using sqrt_hundredth
    rw [Finset.sum_congr rfl hz, Finset.sum_const, Finset.card_range, nsmul_eq_mul]
    field_simp
    ring
  · unfold huber_loss_temporal
    have hz : ∀ n ∈ Finset.range (N - 1), ∀ h ∈ Finset.range H, ∀ w ∈ Finset.range W,
        (flowNorm flow2 (n + 1) h w - flowNorm flow2 n h w) ^ 2 = 0 := by
      intro n _ h _ w _
      rw [hnorm2, hnorm2]
      ring
    rw [Finset.sum_congr rfl fun n hn => Finset.sum_congr rfl fun h hh =>
      Finset.sum_congr rfl fun w hw => hz n hn h hh w hw]
    simpa using sqrt_hundredth
  · intro f
    unfold huber_loss_spatial
    apply div_pos
    · apply Finset.sum_pos
      · intro n _
        apply Real.sqrt_pos.2
        have : (0 : ℝ) ≤ ∑ h ∈ Finset.range (H - 1), ∑ w ∈ Finset.range (W - 1),
            ((flowNorm f n (h + 1) w - flowNorm f n h w) ^ 2 +
             (flowNorm f n h (w + 1) - flowNorm f n h w) ^ 2) := by
          apply Finset.sum_nonneg
          intro h _
          apply Finset.sum_nonneg
          intro w _
          positivity
        nlinarith
      · exact Finset.nonempty_range_iff.2 (by omega)
    · exact_mod_cast hN
  · intro f
    unfold huber_loss_temporal
    apply Real.sqrt_pos.2
    have : (0 : ℝ) ≤ ∑ n ∈ Finset.range (N - 1), ∑ h ∈ Finset.range H, ∑ w ∈ Finset.range W,
        (flowNorm f (n + 1) h w - flowNorm f n h w) ^ 2 := by
      apply Finset.sum_nonneg; intro n _
      apply Finset.sum_nonneg; intro h _
      apply Finset.sum_nonneg; intro w _
      positivity
    nlinarith

/-- Witness for `huber_loss_const_amended` at the all-zero `(1, 2, 1, 1)` flow. -/
theorem huber_loss_const_amended_witness :
    0 < 1 ∧ huber_loss_spatial 1 1 1 (fun _ _ _ _ => 0) = 1 / 10 := by
  refine ⟨Nat.one_pos, ?_⟩
  exact (huber_loss_const_amended 1 1 1 Nat.one_pos (fun _ _ => 0) (fun _ _ _ => 0)
    (fun _ _ _ _ => 0) (fun _ _ _ _ => 0) (fun _ _ _ _ => rfl) (fun _ _ _ _ => rfl)).1

theorem miTermRatio_symm (sigma : ℝ) (bins : ℕ → ℝ) (B : ℕ) {ι : Type} (s : Finset ι)
    (x y : ι → ℝ) :
    (miEntX sigma bins B s x y + miEntY sigma bins B s x y) / miEntJoint sigma bins B s x y =
    (miEntX sigma bins B s y x + miEntY sigma bins B s y x) / miEntJoint sigma bins B s y x := by
  rw [miEntX_symm sigma bins B s x y, (miEntX_symm sigma bins B s y x).symm,
    miEntJoint_symm sigma bins B s x y, add_comm]

theorem miTermDiff_symm (sigma : ℝ) (bins : ℕ → ℝ) (B : ℕ) {ι : Type} (s : Finset ι)
    (x y : ι → ℝ) :
    miEntX sigma bins B s x y + miEntY sigma bins B s x y - miEntJoint sigma bins B s x y =
    miEntX sigma bins B s y x + miEntY sigma bins B s y x - miEntJoint sigma bins B s y x := by
  rw [miEntX_symm sigma bins B s x y, (miEntX_symm sigma bins B s y x).symm,
    miEntJoint_symm sigma bins B s x y, add_comm]

/-- Claim C5: `MILossGaussian.forward` is symmetric under swapping the
target and source inputs (exactly, in exact real arithmetic), both with
`roi = false` and with `roi = true`. -/
theorem MILossGaussian_forward_symm (vmin vmax : ℝ) (B : ℕ) (roi : Bool) (roiT : ℝ)
    (normalised : Bool) (N K : ℕ) (x y : ℕ → ℕ → ℝ) :
    MILossGaussian_forward vmin vmax B roi roiT normalised N K x y =
    MILossGaussian_forward vmin vmax B roi roiT normalised N K y x := by
  unfold MILossGaussian_forward miForwardCore
  cases roi
  · cases normalised
    · simp only [Bool.false_eq_true, if_false]
      refine congrArg (fun z : ℝ => -(z / ((N : ℕ) : ℝ))) ?_
      exact Finset.sum_congr rfl fun n _ => miTermDiff_symm _ _ _ _ _ _
    · simp only [Bool.false_eq_true, if_false, reduceIte]
      refine congrArg (fun z : ℝ => -(z / ((N : ℕ) : ℝ))) ?_
      exact Finset.sum_congr rfl fun n _ => miTermRatio_symm _ _ _ _ _ _
  · cases normalised
    · simp only [Bool.false_eq_true, if_false, reduceIte]
      refine congrArg (fun z : ℝ => -(z / ((1 : ℕ) : ℝ))) ?_
      refine Finset.sum_congr rfl fun n _ => ?_
      rw [roiSet_symm roiT N K x y]
      exact miTermDiff_symm _ _ _ _ _ _
    · simp only [reduceIte]
      refine congrArg (fun z : ℝ => -(z / ((1 : ℕ) : ℝ))) ?_
      refine Finset.sum_congr rfl fun n _ => ?_
      rw [roiSet_symm roiT N K x y]
      exact miTermRatio_symm _ _ _ _ _ _

theorem entropy_rowMarg_eq (sigma : ℝ) (bins : ℕ → ℝ) (B : ℕ) {ι : Type}
    (s : Finset ι) (x y : ι → ℝ) :
    entropy_spec B (rowMarg_spec B (miPJoint sigma bins B s x y)) =
      miEntX sigma bins B s x y := rfl

theorem entropy_colMarg_eq (sigma : ℝ) (bins : ℕ → ℝ) (B : ℕ) {ι : Type}
    (s : Finset ι) (x y : ι → ℝ) :
    entropy_spec B (colMarg_spec B (miPJoint sigma bins B s x y)) =
      miEntY sigma bins B s x y := rfl

theorem jointEntropy_eq (sigma : ℝ) (bins : ℕ → ℝ) (B : ℕ) {ι : Type}
    (s : Finset ι) (x y : ι → ℝ) :
    jointEntropy_spec B (miPJoint sigma bins B s x y) =
      miEntJoint sigma bins B s x y := rfl

/-- Claim C3: `MILossGaussian.forward` computes the marginal and joint
entropies from the joint probability table with an epsilon-guarded logarithm
and returns the negated batch mean of `(H_target + H_source) / H_joint` when
`normalised = true`, and of `H_target + H_source - H_joint` when
`normalised = false` (with `roi = true` the batch is the single pooled
sample). -/
theorem MILossGaussian_forward_entropy_formula (vmin vmax : ℝ) (B : ℕ) (roi : Bool)
    (roiT : ℝ) (normalised : Bool) (N K : ℕ) (x y : ℕ → ℕ → ℝ) :
    MILossGaussian_forward vmin vmax B roi roiT normalised N K x y =
    if roi then
      -((∑ _n ∈ Finset.range 1,
          miValue_spec normalised B
            (miPJoint (miSigma vmin vmax B) (miBins vmin vmax B) B (roiSet roiT N K x y)
              (fun p => x p.1 p.2) (fun p => y p.1 p.2))) / (1 : ℕ))
    else
      -((∑ n ∈ Finset.range N,
          miValue_spec normalised B
            (miPJoint (miSigma vmin vmax B) (miBins vmin vmax B) B (Finset.range K)
              (x n) (y n))) / (N : ℕ)) := by
  unfold MILossGaussian_forward miForwardCore
  cases roi <;> cases normalised <;>
    simp only [Bool.false_eq_true, if_false, reduceIte, miValue_spec,
      entropy_rowMarg_eq, entropy_colMarg_eq, jointEntropy_eq]

/-- Claim C10: with `roi = true`, `MILossGaussian.forward` pools the mask-
selected voxels of the entire batch into a single pooled sample — the
pooled index set is drawn from all `(sample, voxel)` pairs — and the final
batch mean is a mean over exactly one element, so the result is the single
negated (normalised) mutual information of the pooled sample, regardless of the
batch size `N`. -/
theorem MILossGaussian_forward_roi_pools (vmin vmax : ℝ) (B : ℕ) (roiT : ℝ)
    (normalised : Bool) (N K : ℕ) (x y : ℕ → ℕ → ℝ) :
    MILossGaussian_forward vmin vmax B true roiT normalised N K x y =
      -(miValue_spec normalised B
          (miPJoint (miSigma vmin vmax B) (miBins vmin vmax B) B (roiSet roiT N K x y)
            (fun p => x p.1 p.2) (fun p => y p.1 p.2))) ∧
    roiSet roiT N K x y ⊆ Finset.range N ×ˢ Finset.range K := by
  constructor
  · unfold MILossGaussian_forward miForwardCore
    cases normalised
    · simp only [Bool.false_eq_true, if_false, reduceIte, Finset.sum_range_one,
        Nat.cast_one, div_one, miValue_spec, entropy_rowMarg_eq, entropy_colMarg_eq,
        jointEntropy_eq]
    · simp only [reduceIte, Finset.sum_range_one, Nat.cast_one, div_one, miValue_spec,
        entropy_rowMarg_eq, entropy_colMarg_eq, jointEntropy_eq]
  · exact Finset.filter_subset _ _

theorem miSigma_nonneg (vmin vmax : ℝ) (B : ℕ) (hv : vmin ≤ vmax) :
    0 ≤ miSigma vmin vmax B := by
  unfold miSigma
  have h1 : (0 : ℝ) ≤ (vmax - vmin) / B := div_nonneg (by linarith) (Nat.cast_nonneg B)
  have h2 : (0 : ℝ) ≤ 1 / (2 * Real.sqrt (2 * Real.log 2)) := by positivity
  exact mul_nonneg h1 h2

theorem gaussWin_nonneg (sigma : ℝ) (bins : ℕ → ℝ) (v : ℝ) (b : ℕ)
    (hs : 0 ≤ sigma) : 0 ≤ gaussWin sigma bins v b :=
  mul_nonneg (div_nonneg (Real.exp_pos _).le (Real.sqrt_nonneg _)) hs

theorem miHistJoint_nonneg (sigma : ℝ) (bins : ℕ → ℝ) {ι : Type} (s : Finset ι)
    (x y : ι → ℝ) (b1 b2 : ℕ) (hs : 0 ≤ sigma) :
    0 ≤ miHistJoint sigma bins s x y b1 b2 :=
  Finset.sum_nonneg fun k _ =>
    mul_nonneg (gaussWin_nonneg sigma bins (x k) b1 hs) (gaussWin_nonneg sigma bins (y k) b2 hs)

theorem miHistMass_nonneg (sigma : ℝ) (bins : ℕ → ℝ) (B : ℕ) {ι : Type}
    (s : Finset ι) (x y : ι → ℝ) (hs : 0 ≤ sigma) :
    0 ≤ miHistMass sigma bins B s x y :=
  Finset.sum_nonneg fun b1 _ => Finset.sum_nonneg fun b2 _ =>
    miHistJoint_nonneg sigma bins s x y b1 b2 hs

theorem miPJoint_sum_eq (sigma : ℝ) (bins : ℕ → ℝ) (B : ℕ) {ι : Type}
    (s : Finset ι) (x y : ι → ℝ) :
    (∑ b1 ∈ Finset.range B, ∑ b2 ∈ Finset.range B, miPJoint sigma bins B s x y b1 b2) =
      miHistMass sigma bins B s x y / (miHistMass sigma bins B s x y + 1e-10) := by
  unfold miPJoint
  simp only [← Finset.sum_div]
  rfl

/-- Amended claim C1: the joint probability table returned by
`MILossGaussian._compute_joint_prob` has only non-negative entries, and for
every batch sample the entries of the table sum to `M / (M + 1e-10)` where `M` is
the unnormalised histogram mass of the sample; this sum is within `1e-6` of `1`
whenever `M ≥ 1e-4` (in particular for all realistic in-range images), but
not for arbitrary inputs (see the counterexample). -/
theorem miPJoint_nonneg_sum_amended (vmin vmax : ℝ) (B : ℕ) (hv : vmin ≤ vmax)
    {ι : Type} (s : Finset ι) (x y : ι → ℝ) :
    (∀ b1 b2, 0 ≤ miPJoint (miSigma vmin vmax B) (miBins vmin vmax B) B s x y b1 b2) ∧
    (1e-4 ≤ miHistMass (miSigma vmin vmax B) (miBins vmin vmax B) B s x y →
      |(∑ b1 ∈ Finset.range B, ∑ b2 ∈ Finset.range B,
          miPJoint (miSigma vmin vmax B) (miBins vmin vmax B) B s x y b1 b2) - 1| ≤ 1e-6) := by
  have hs : 0 ≤ miSigma vmin vmax B := miSigma_nonneg vmin vmax B hv
  have hM0 : 0 ≤ miHistMass (miSigma vmin vmax B) (miBins vmin vmax B) B s x y :=
    miHistMass_nonneg _ _ B s x y hs
  constructor
  · intro b1 b2
    unfold miPJoint
    apply div_nonneg (miHistJoint_nonneg _ _ s x y b1 b2 hs)
    nlinarith
  · intro hM
    rw [miPJoint_sum_eq]
    set M := miHistMass (miSigma vmin vmax B) (miBins vmin vmax B) B s x y with hMdef
    have hMpos : (0 : ℝ) < M + 1e-10 := by nlinarith
    have heq : M / (M + 1e-10) - 1 = -(1e-10 / (M + 1e-10)) := by
      field_simp
    rw [heq, abs_neg, abs_of_nonneg (by positivity)]
    have h2 : 1e-10 / (M + 1e-10) ≤ 1e-10 / 1e-4 :=
      div_le_div_of_nonneg_left (by norm_num) (by norm_num) (by nlinarith)
    calc 1e-10 / (M + 1e-10) ≤ 1e-10 / 1e-4 := h2
      _ ≤ 1e-6 := by norm_num


theorem exp_neg_le_inv (a : ℝ) (ha : 0 < a) : Real.exp (-a) ≤ a⁻¹ := by
  rw [Real.exp_neg]
  exact inv_anti₀ ha (by linarith [Real.add_one_le_exp a])

theorem miBins_zero_val : miBins 0 1 64 0 = 0 := by
  unfold miBins
  norm_num

theorem gaussWin_at_center :
    gaussWin (miSigma 0 1 64) (miBins 0 1 64) 0 0 =
      miSigma 0 1 64 / Real.sqrt (2 * Real.pi) := by
  unfold gaussWin
  rw [show -(0 - miBins 0 1 64 0) ^ 2 / (2 * miSigma 0 1 64 ^ 2) = 0 by
    rw [miBins_zero_val]; simp]
  rw [Real.exp_zero]
  ring

theorem sqrt_two_log_two_pos : 0 < Real.sqrt (2 * Real.log 2) :=
  Real.sqrt_pos.mpr (mul_pos two_pos (Real.log_pos one_lt_two))

theorem miSigma64_eq :
    miSigma 0 1 64 = 1 / (128 * Real.sqrt (2 * Real.log 2)) := by
  unfold miSigma
  have h := sqrt_two_log_two_pos
  rw [show ((64 : ℕ) : ℝ) = 64 from by norm_num]
  field_simp
  ring

theorem miHistMass_const20_lb :
    1e-4 ≤ miHistMass (miSigma 0 1 64) (miBins 0 1 64) 64 (Finset.range 20)
      (fun _ => (0 : ℝ)) (fun _ => (0 : ℝ)) := by
  have hσnn : 0 ≤ miSigma 0 1 64 := miSigma_nonneg 0 1 64 (by norm_num)
  have hwnn : ∀ b, 0 ≤ gaussWin (miSigma 0 1 64) (miBins 0 1 64) 0 b :=
    fun b => gaussWin_nonneg _ _ 0 b hσnn
  have hj : ∀ b1 b2, miHistJoint (miSigma 0 1 64) (miBins 0 1 64) (Finset.range 20)
      (fun _ => (0 : ℝ)) (fun _ => (0 : ℝ)) b1 b2 =
      20 * (gaussWin (miSigma 0 1 64) (miBins 0 1 64) 0 b1 *
        gaussWin (miSigma 0 1 64) (miBins 0 1 64) 0 b2) := by
    intro b1 b2
    unfold miHistJoint
    rw [Finset.sum_const, Finset.card_range, nsmul_eq_mul]
    norm_num
  have hmass : miHistMass (miSigma 0 1 64) (miBins 0 1 64) 64 (Finset.range 20)
      (fun _ => (0 : ℝ)) (fun _ => (0 : ℝ)) =
      ∑ b1 ∈ Finset.range 64, ∑ b2 ∈ Finset.range 64,
        20 * (gaussWin (miSigma 0 1 64) (miBins 0 1 64) 0 b1 *
          gaussWin (miSigma 0 1 64) (miBins 0 1 64) 0 b2) := by
    unfold miHistMass
    exact Finset.sum_congr rfl fun b1 _ => Finset.sum_congr rfl fun b2 _ => hj b1 b2
  have h0mem : (0 : ℕ) ∈ Finset.range 64 := Finset.mem_range.mpr (by norm_num)
  have step1 : 20 * (gaussWin (miSigma 0 1 64) (miBins 0 1 64) 0 0 *
      gaussWin (miSigma 0 1 64) (miBins 0 1 64) 0 0) ≤
      ∑ b2 ∈ Finset.range 64, 20 * (gaussWin (miSigma 0 1 64) (miBins 0 1 64) 0 0 *
        gaussWin (miSigma 0 1 64) (miBins 0 1 64) 0 b2) :=
    Finset.single_le_sum
      (fun b2 _ => mul_nonneg (by norm_num) (mul_nonneg (hwnn 0) (hwnn b2))) h0mem
  have step2 : (∑ b2 ∈ Finset.range 64,
      20 * (gaussWin (miSigma 0 1 64) (miBins 0 1 64) 0 0 *
        gaussWin (miSigma 0 1 64) (miBins 0 1 64) 0 b2)) ≤
      ∑ b1 ∈ Finset.range 64, ∑ b2 ∈ Finset.range 64,
        20 * (gaussWin (miSigma 0 1 64) (miBins 0 1 64) 0 b1 *
          gaussWin (miSigma 0 1 64) (miBins 0 1 64) 0 b2) :=
    Finset.single_le_sum
      (f := fun b1 => ∑ b2 ∈ Finset.range 64,
        20 * (gaussWin (miSigma 0 1 64) (miBins 0 1 64) 0 b1 *
          gaussWin (miSigma 0 1 64) (miBins 0 1 64) 0 b2))
      (fun b1 _ => Finset.sum_nonneg fun b2 _ =>
        mul_nonneg (by norm_num) (mul_nonneg (hwnn b1) (hwnn b2))) h0mem
  have hs1sq : Real.sqrt (2 * Real.log 2) ^ 2 = 2 * Real.log 2 :=
    Real.sq_sqrt (mul_pos two_pos (Real.log_pos one_lt_two)).le
  have hs2sq : Real.sqrt (2 * Real.pi) ^ 2 = 2 * Real.pi :=
    Real.sq_sqrt (by positivity)
  have hs1pos : 0 < Real.sqrt (2 * Real.log 2) := sqrt_two_log_two_pos
  have hs2pos : 0 < Real.sqrt (2 * Real.pi) := Real.sqrt_pos.mpr (by positivity)
  have hw0_eq : gaussWin (miSigma 0 1 64) (miBins 0 1 64) 0 0 =
      1 / (128 * Real.sqrt (2 * Real.log 2) * Real.sqrt (2 * Real.pi)) := by
    rw [gaussWin_at_center, miSigma64_eq, div_div]
  have hbound : 1e-4 ≤ 20 * (gaussWin (miSigma 0 1 64) (miBins 0 1 64) 0 0 *
      gaussWin (miSigma 0 1 64) (miBins 0 1 64) 0 0) := by
    rw [hw0_eq, div_mul_div_comm, show (1 : ℝ) * 1 = 1 by norm_num, mul_one_div,
      le_div_iff₀ (by positivity)]
    have hprod : Real.sqrt (2 * Real.log 2) ^ 2 * Real.sqrt (2 * Real.pi) ^ 2 ≤ 8.74 := by
      rw [hs1sq, hs2sq]
      nlinarith [Real.log_two_lt_d9, Real.pi_lt_d2, Real.log_two_gt_d9, Real.pi_gt_three]
    nlinarith [hprod, hs1pos, hs2pos]
  calc (1e-4 : ℝ) ≤ 20 * (gaussWin (miSigma 0 1 64) (miBins 0 1 64) 0 0 *
        gaussWin (miSigma 0 1 64) (miBins 0 1 64) 0 0) := hbound
    _ ≤ ∑ b2 ∈ Finset.range 64, 20 * (gaussWin (miSigma 0 1 64) (miBins 0 1 64) 0 0 *
        gaussWin (miSigma 0 1 64) (miBins 0 1 64) 0 b2) := step1
    _ ≤ ∑ b1 ∈ Finset.range 64, ∑ b2 ∈ Finset.range 64,
        20 * (gaussWin (miSigma 0 1 64) (miBins 0 1 64) 0 b1 *
          gaussWin (miSigma 0 1 64) (miBins 0 1 64) 0 b2) := step2
    _ = miHistMass (miSigma 0 1 64) (miBins 0 1 64) 64 (Finset.range 20)
        (fun _ => (0 : ℝ)) (fun _ => (0 : ℝ)) := hmass.symm

/-- Witness for `miPJoint_nonneg_sum_amended`: the default module
(`vmin = 0`, `vmax = 1`, `num_bins = 64`) on a 20-voxel constant-zero sample
satisfies the mass hypothesis, so its joint table is non-negative and sums to
1 within `1e-6`. -/
theorem miPJoint_nonneg_sum_amended_witness :
    (0 : ℝ) ≤ 1 ∧
    1e-4 ≤ miHistMass (miSigma 0 1 64) (miBins 0 1 64) 64 (Finset.range 20)
      (fun _ => (0 : ℝ)) (fun _ => (0 : ℝ)) ∧
    |(∑ b1 ∈ Finset.range 64, ∑ b2 ∈ Finset.range 64,
        miPJoint (miSigma 0 1 64) (miBins 0 1 64) 64 (Finset.range 20)
          (fun _ => (0 : ℝ)) (fun _ => (0 : ℝ)) b1 b2) - 1| ≤ 1e-6 ∧
    0 ≤ miPJoint (miSigma 0 1 64) (miBins 0 1 64) 64 (Finset.range 20)
      (fun _ => (0 : ℝ)) (fun _ => (0 : ℝ)) 0 0 :=
  ⟨by norm_num, miHistMass_const20_lb,
    (miPJoint_nonneg_sum_amended 0 1 64 (by norm_num) (Finset.range 20)
      (fun _ => (0 : ℝ)) (fun _ => (0 : ℝ))).2 miHistMass_const20_lb,
    (miPJoint_nonneg_sum_amended 0 1 64 (by norm_num) (Finset.range 20)
      (fun _ => (0 : ℝ)) (fun _ => (0 : ℝ))).1 0 0⟩

theorem miSigma64_pos : 0 < miSigma 0 1 64 := by
  rw [miSigma64_eq]
  positivity

theorem miSigma64_le : miSigma 0 1 64 ≤ 1 / 64 := by
  rw [miSigma64_eq]
  have h1 : (1 : ℝ) / 2 ≤ Real.sqrt (2 * Real.log 2) := by
    rw [Real.le_sqrt (by norm_num) (mul_pos two_pos (Real.log_pos one_lt_two)).le]
    nlinarith [Real.log_two_gt_d9]
  rw [div_le_div_iff₀ (by positivity) (by norm_num)]
  nlinarith [h1]

theorem miBins64_range (b : ℕ) (hb : b < 64) :
    0 ≤ miBins 0 1 64 b ∧ miBins 0 1 64 b ≤ 1 := by
  unfold miBins
  have hb' : (b : ℝ) ≤ 63 := by exact_mod_cast Nat.lt_succ_iff.mp hb
  have hbn : (0 : ℝ) ≤ (b : ℝ) := Nat.cast_nonneg b
  norm_num
  constructor
  · positivity
  · rw [div_le_one (by norm_num)]
    linarith

theorem gaussWin_far_le (b : ℕ) (hb : b < 64) :
    gaussWin (miSigma 0 1 64) (miBins 0 1 64) 1000 b ≤ 2 / (64 ^ 3 * 999 ^ 2) := by
  have hσpos := miSigma64_pos
  have hσle := miSigma64_le
  obtain ⟨hb0, hb1⟩ := miBins64_range b hb
  have hq : (999 : ℝ) ^ 2 ≤ (1000 - miBins 0 1 64 b) ^ 2 := by nlinarith
  have h2σ : (0 : ℝ) < 2 * miSigma 0 1 64 ^ 2 := by positivity
  have hexp1 : Real.exp (-(1000 - miBins 0 1 64 b) ^ 2 / (2 * miSigma 0 1 64 ^ 2)) ≤
      Real.exp (-(999 : ℝ) ^ 2 / (2 * miSigma 0 1 64 ^ 2)) := by
    apply Real.exp_le_exp.mpr
    apply div_le_div_of_nonneg_right ?_ h2σ.le
    linarith
  have hexp2 : Real.exp (-(999 : ℝ) ^ 2 / (2 * miSigma 0 1 64 ^ 2)) ≤
      2 * miSigma 0 1 64 ^ 2 / 999 ^ 2 := by
    have h := exp_neg_le_inv ((999 : ℝ) ^ 2 / (2 * miSigma 0 1 64 ^ 2)) (by positivity)
    rw [neg_div]
    rw [inv_div] at h
    exact h
  have hsq : (1 : ℝ) ≤ Real.sqrt (2 * Real.pi) :=
    Real.one_le_sqrt.mpr (by nlinarith [Real.pi_gt_three])
  unfold gaussWin
  have hexp_nonneg : (0 : ℝ) ≤
      Real.exp (-(1000 - miBins 0 1 64 b) ^ 2 / (2 * miSigma 0 1 64 ^ 2)) :=
    (Real.exp_pos _).le
  have step1 : Real.exp (-(1000 - miBins 0 1 64 b) ^ 2 / (2 * miSigma 0 1 64 ^ 2)) /
      Real.sqrt (2 * Real.pi) * miSigma 0 1 64 ≤
      Real.exp (-(1000 - miBins 0 1 64 b) ^ 2 / (2 * miSigma 0 1 64 ^ 2)) *
        miSigma 0 1 64 :=
    mul_le_mul_of_nonneg_right (div_le_self hexp_nonneg hsq) hσpos.le
  have step2 : Real.exp (-(1000 - miBins 0 1 64 b) ^ 2 / (2 * miSigma 0 1 64 ^ 2)) *
      miSigma 0 1 64 ≤ (2 * miSigma 0 1 64 ^ 2 / 999 ^ 2) * miSigma 0 1 64 :=
    mul_le_mul_of_nonneg_right (hexp1.trans hexp2) hσpos.le
  have step3 : (2 * miSigma 0 1 64 ^ 2 / 999 ^ 2) * miSigma 0 1 64 =
      2 * miSigma 0 1 64 ^ 3 / 999 ^ 2 := by ring
  have step4 : 2 * miSigma 0 1 64 ^ 3 / 999 ^ 2 ≤ 2 * (1 / 64 : ℝ) ^ 3 / 999 ^ 2 := by
    have h3 : miSigma 0 1 64 ^ 3 ≤ (1 / 64 : ℝ) ^ 3 := pow_le_pow_left₀ hσpos.le hσle 3
    apply div_le_div_of_nonneg_right ?_ (by norm_num)
    linarith
  calc Real.exp (-(1000 - miBins 0 1 64 b) ^ 2 / (2 * miSigma 0 1 64 ^ 2)) /
        Real.sqrt (2 * Real.pi) * miSigma 0 1 64
      ≤ (2 * miSigma 0 1 64 ^ 2 / 999 ^ 2) * miSigma 0 1 64 := step1.trans step2
    _ = 2 * miSigma 0 1 64 ^ 3 / 999 ^ 2 := step3
    _ ≤ 2 * (1 / 64 : ℝ) ^ 3 / 999 ^ 2 := step4
    _ = 2 / (64 ^ 3 * 999 ^ 2) := by norm_num

theorem miHistMass_far_ub :
    miHistMass (miSigma 0 1 64) (miBins 0 1 64) 64 ({0} : Finset ℕ)
      (fun _ => (1000 : ℝ)) (fun _ => (1000 : ℝ)) ≤ 1e-5 := by
  have hσnn : 0 ≤ miSigma 0 1 64 := miSigma64_pos.le
  have hwnn : ∀ b, 0 ≤ gaussWin (miSigma 0 1 64) (miBins 0 1 64) 1000 b :=
    fun b => gaussWin_nonneg _ _ 1000 b hσnn
  have hmass : miHistMass (miSigma 0 1 64) (miBins 0 1 64) 64 ({0} : Finset ℕ)
      (fun _ => (1000 : ℝ)) (fun _ => (1000 : ℝ)) =
      (∑ b ∈ Finset.range 64, gaussWin (miSigma 0 1 64) (miBins 0 1 64) 1000 b) *
      (∑ b ∈ Finset.range 64, gaussWin (miSigma 0 1 64) (miBins 0 1 64) 1000 b) := by
    unfold miHistMass miHistJoint
    rw [Finset.sum_mul_sum]
    exact Finset.sum_congr rfl fun b1 _ => Finset.sum_congr rfl fun b2 _ => by
      rw [Finset.sum_singleton]
  have hsum_le : (∑ b ∈ Finset.range 64, gaussWin (miSigma 0 1 64) (miBins 0 1 64) 1000 b) ≤
      64 * (2 / (64 ^ 3 * 999 ^ 2)) := by
    calc (∑ b ∈ Finset.range 64, gaussWin (miSigma 0 1 64) (miBins 0 1 64) 1000 b)
        ≤ (Finset.range 64).card • (2 / (64 ^ 3 * 999 ^ 2) : ℝ) :=
          Finset.sum_le_card_nsmul _ _ _ fun b hb => gaussWin_far_le b (Finset.mem_range.mp hb)
      _ = 64 * (2 / (64 ^ 3 * 999 ^ 2)) := by
          rw [Finset.card_range, nsmul_eq_mul]
          norm_num
  have hsum_nn : (0 : ℝ) ≤
      ∑ b ∈ Finset.range 64, gaussWin (miSigma 0 1 64) (miBins 0 1 64) 1000 b :=
    Finset.sum_nonneg fun b _ => hwnn b
  rw [hmass]
  calc (∑ b ∈ Finset.range 64, gaussWin (miSigma 0 1 64) (miBins 0 1 64) 1000 b) *
        (∑ b ∈ Finset.range 64, gaussWin (miSigma 0 1 64) (miBins 0 1 64) 1000 b)
      ≤ (64 * (2 / (64 ^ 3 * 999 ^ 2))) * (64 * (2 / (64 ^ 3 * 999 ^ 2))) :=
        mul_le_mul hsum_le hsum_le hsum_nn (by positivity)
    _ ≤ 1e-5 := by norm_num

/-- Counterexample to claim C1 as stated: for the single-voxel pair
`x = y = 1000` (far outside `[vmin, vmax] = [0, 1]`), the joint probability
table of the default module does not sum to 1 within `1e-6` — the
unnormalised mass is astronomically small, so the `+ 1e-10` normalisation
guard drives the total far below 1. -/
theorem miPJoint_sum_counterexample :
    ¬ (|(∑ b1 ∈ Finset.range 64, ∑ b2 ∈ Finset.range 64,
        miPJoint (miSigma 0 1 64) (miBins 0 1 64) 64 ({0} : Finset ℕ)
          (fun _ => (1000 : ℝ)) (fun _ => (1000 : ℝ)) b1 b2) - 1| ≤ 1e-6) := by
  rw [miPJoint_sum_eq]
  have hub := miHistMass_far_ub
  have hnn : 0 ≤ miHistMass (miSigma 0 1 64) (miBins 0 1 64) 64 ({0} : Finset ℕ)
      (fun _ => (1000 : ℝ)) (fun _ => (1000 : ℝ)) :=
    miHistMass_nonneg _ _ 64 _ _ _ miSigma64_pos.le
  set M := miHistMass (miSigma 0 1 64) (miBins 0 1 64) 64 ({0} : Finset ℕ)
    (fun _ => (1000 : ℝ)) (fun _ => (1000 : ℝ)) with hMdef
  have hpos : (0 : ℝ) < M + 1e-10 := by nlinarith
  have heq : M / (M + 1e-10) - 1 = -(1e-10 / (M + 1e-10)) := by field_simp
  rw [heq, abs_neg, abs_of_nonneg (by positivity), not_le]
  have hlt : (1e-10 : ℝ) / 1e-4 < 1e-10 / (M + 1e-10) :=
    div_lt_div_of_pos_left (by norm_num) hpos (by nlinarith)
  calc (1e-6 : ℝ) = 1e-10 / 1e-4 := by norm_num
    _ < 1e-10 / (M + 1e-10) := hlt

/-- Claim C6: the Gaussian kernel bandwidth `sigma` is fixed at construction
(it is a function of `vmin`, `vmax`, `num_bins` only, stored by `__init__`)
such that the full width at half maximum of the kernel, `2 sqrt(2 ln 2) sigma`
equals one bin width `(vmax - vmin)/num_bins`, and the `num_bins` bin centres
are placed uniformly over `[vmin, vmax]`: first centre `vmin`, last centre
`vmax`, consecutive centres `(vmax - vmin)/(num_bins - 1)` apart. -/
theorem miSigma_fwhm_bins_uniform (vmin vmax : ℝ) (B : ℕ) (hB : 2 ≤ B) :
    2 * Real.sqrt (2 * Real.log 2) * miSigma vmin vmax B = (vmax - vmin) / B ∧
    miBins vmin vmax B 0 = vmin ∧
    miBins vmin vmax B (B - 1) = vmax ∧
    (∀ b : ℕ, miBins vmin vmax B (b + 1) - miBins vmin vmax B b =
      (vmax - vmin) / ((B - 1 : ℕ) : ℝ)) ∧
    (∀ roi roiT normalised,
      (MIGauss_init vmin vmax B roi roiT normalised).sigma = miSigma vmin vmax B ∧
      (MIGauss_init vmin vmax B roi roiT normalised).bins = miBins vmin vmax B) := by
  refine ⟨?_, ?_, ?_, ?_, fun roi roiT normalised => ⟨rfl, rfl⟩⟩
  · unfold miSigma
    have h := sqrt_two_log_two_pos
    field_simp
    ring
  · unfold miBins
    simp
  · unfold miBins
    have h2 : ((B : ℝ) - 1) ≠ 0 := by
      have hc : (2 : ℝ) ≤ (B : ℝ) := by exact_mod_cast hB
      linarith
    rw [Nat.cast_sub (by omega), Nat.cast_one]
    field_simp
  · intro b
    unfold miBins
    push_cast
    ring

/-- Witness for `miSigma_fwhm_bins_uniform` at the default configuration
`vmin = 0`, `vmax = 1`, `num_bins = 64`. -/
theorem miSigma_fwhm_bins_uniform_witness :
    2 ≤ 64 ∧ miBins 0 1 64 (64 - 1) = 1 ∧
    2 * Real.sqrt (2 * Real.log 2) * miSigma 0 1 64 = ((1 : ℝ) - 0) / 64 :=
  ⟨by norm_num, (miSigma_fwhm_bins_uniform 0 1 64 (by norm_num)).2.2.1,
    (miSigma_fwhm_bins_uniform 0 1 64 (by norm_num)).1⟩

/-- Amended claim C7: at the level of stored values, `MILossGaussian.forward`
leaves the module unchanged (the only assignment, `self.bins =
self.bins.type_as(x)`, re-binds the bin-centre buffer to a value-preserving
dtype/device cast of itself), and `MILossBSpline.forward` stores nothing on
the module when `debug = false`; with `debug = true` it does store the joint
histogram and the distributions (see the counterexample), so the claim as
stated fails. -/
theorem simloss_forward_state_amended (st : MIGaussState) (N K : ℕ)
    (x y : ℕ → ℕ → ℝ) (st2 : MIBSplineState) (N2 K2 : ℕ) (t u : ℕ → ℕ → ℝ)
    (hdbg : st2.debug = false) :
    (MIGauss_forward st N K x y).2 = st ∧
    (MIBSpline_forward st2 N2 K2 t u).2 = st2 := by
  constructor
  · rfl
  · unfold MIBSpline_forward
    simp only [hdbg, Bool.false_eq_true, if_false]

/-- Witness for `simloss_forward_state_amended` on freshly constructed
modules with `debug = false`. -/
theorem simloss_forward_state_amended_witness :
    (MIBSpline_init 0 1 0 1 32 32 1 1 true ("cubic_bspline") false).debug = false ∧
    (MIGauss_forward (MIGauss_init 0 1 64 false 0.0001 true) 1 1
        (fun _ _ => 0) (fun _ _ => 0)).2 = MIGauss_init 0 1 64 false 0.0001 true ∧
    (MIBSpline_forward (MIBSpline_init 0 1 0 1 32 32 1 1 true ("cubic_bspline") false)
        1 1 (fun _ _ => 0) (fun _ _ => 0)).2 =
      MIBSpline_init 0 1 0 1 32 32 1 1 true ("cubic_bspline") false := by
  refine ⟨rfl, ?_, ?_⟩
  · exact (simloss_forward_state_amended (MIGauss_init 0 1 64 false 0.0001 true) 1 1
      (fun _ _ => 0) (fun _ _ => 0)
      (MIBSpline_init 0 1 0 1 32 32 1 1 true ("cubic_bspline") false) 1 1
      (fun _ _ => 0) (fun _ _ => 0) rfl).1
  · exact (simloss_forward_state_amended (MIGauss_init 0 1 64 false 0.0001 true) 1 1
      (fun _ _ => 0) (fun _ _ => 0)
      (MIBSpline_init 0 1 0 1 32 32 1 1 true ("cubic_bspline") false) 1 1
      (fun _ _ => 0) (fun _ _ => 0) rfl).2

/-- Counterexample to claim C7 as stated: a `MILossBSpline` module constructed
with `debug=True` starts with no stored histogram, but after one forward call
its `histogram_joint` field holds a stored per-call result. -/
theorem bspline_debug_stores_counterexample :
    (MIBSpline_init 0 1 0 1 32 32 1 1 true ("cubic_bspline") true).histogram_joint = none ∧
    (MIBSpline_forward (MIBSpline_init 0 1 0 1 32 32 1 1 true ("cubic_bspline") true)
        1 1 (fun _ _ => 0) (fun _ _ => 0)).2.histogram_joint ≠ none := by
  constructor
  · rfl
  · simp [MIBSpline_forward, MIBSpline_init]

/-- Claim C8: constructing `DLRegModel` with `params.transformation` other
than `DVF`/`FFD`, or `params.network` other than the four recognised names,
raises a `ValueError` at construction time (modelled as `Except.error`) — no
silent fallback. -/
theorem DLRegModel_init_rejects_unknown (p : ModelParams) :
    ((p.transformation ≠ ("DVF") ∧ p.transformation ≠ ("FFD")) →
      ∃ msg, DLRegModel_init p = Except.error msg) ∧
    ((p.network ≠ ("SiameseNetDVF") ∧ p.network ≠ ("UNetDVF") ∧
        p.network ≠ ("SiameseNetFFD") ∧ p.network ≠ ("FFDNet")) →
      ∃ msg, DLRegModel_init p = Except.error msg) := by
  constructor
  · rintro ⟨h1, h2⟩
    have htr : set_transformation_model p =
        Except.error ("Model: Transformation model not recognised") := by
      simp [set_transformation_model, h1, h2]
    rcases hsn : set_network p with e | v
    · exact ⟨e, by simp [DLRegModel_init, hsn]⟩
    · exact ⟨("Model: Transformation model not recognised"),
        by simp [DLRegModel_init, hsn, htr]⟩
  · rintro ⟨h1, h2, h3, h4⟩
    have hsn : set_network p = Except.error ("Model: Network not recognised") := by
      simp [set_network, h1, h2, h3, h4]
    exact ⟨("Model: Network not recognised"), by simp [DLRegModel_init, hsn]⟩

/-- Witness for `DLRegModel_init_rejects_unknown`: concrete parameter records
with an unknown transformation tag and an unknown network tag each fail to
construct. -/
theorem DLRegModel_init_rejects_unknown_witness :
    ((("SVF") : String) ≠ ("DVF") ∧ (("SVF") : String) ≠ ("FFD") ∧
      ∃ msg, DLRegModel_init
        ⟨("SiameseNetDVF"), ("SVF"), 3, [], [], 3, [], 4⟩ = Except.error msg) ∧
    ((("VoxelMorph") : String) ≠ ("SiameseNetDVF") ∧
      ∃ msg, DLRegModel_init
        ⟨("VoxelMorph"), ("DVF"), 3, [], [], 3, [], 4⟩ = Except.error msg) := by
  refine ⟨⟨by decide, by decide, ?_⟩, ⟨by decide, ?_⟩⟩
  · exact (DLRegModel_init_rejects_unknown
      ⟨("SiameseNetDVF"), ("SVF"), 3, [], [], 3, [], 4⟩).1 ⟨by decide, by decide⟩
  · exact (DLRegModel_init_rejects_unknown
      ⟨("VoxelMorph"), ("DVF"), 3, [], [], 3, [], 4⟩).2
      ⟨by decide, by decide, by decide, by decide⟩

theorem padded_mul {d : ℕ} (s : Fin d → ℕ) (t u : (Fin d → ℕ) → ℝ) (z : Fin d → ℤ) :
    padded s (fun p => t p * u p) z = padded s t z * padded s u z := by
  unfold padded
  split_ifs
  · rfl
  · norm_num

theorem card_winBox {d : ℕ} (w : Fin d → ℕ) : (winBox w).card = winNumPoints w := by
  unfold winBox winNumPoints
  rw [Fintype.card_piFinset]
  exact Finset.prod_congr rfl fun i _ => Finset.card_range (w i)

theorem sum_centered_sq {ι : Type} (S : Finset ι) (g : ι → ℝ) (μ : ℝ) :
    ∑ f ∈ S, (g f - μ) ^ 2 =
      (∑ f ∈ S, g f ^ 2) - 2 * μ * (∑ f ∈ S, g f) + (S.card : ℝ) * μ ^ 2 := by
  rw [Finset.sum_congr rfl (fun f _ =>
    show (g f - μ) ^ 2 = g f ^ 2 - 2 * μ * g f + μ ^ 2 from by ring)]
  rw [Finset.sum_add_distrib, Finset.sum_sub_distrib, ← Finset.mul_sum,
    Finset.sum_const, nsmul_eq_mul]

theorem sum_centered_mul {ι : Type} (S : Finset ι) (g h : ι → ℝ) (a b : ℝ) :
    ∑ f ∈ S, (g f - a) * (h f - b) =
      (∑ f ∈ S, g f * h f) - b * (∑ f ∈ S, g f) - a * (∑ f ∈ S, h f) +
        (S.card : ℝ) * (a * b) := by
  rw [Finset.sum_congr rfl (fun f _ =>
    show (g f - a) * (h f - b) = g f * h f - b * g f - a * h f + a * b from by ring)]
  rw [Finset.sum_add_distrib, Finset.sum_sub_distrib, Finset.sum_sub_distrib,
    ← Finset.mul_sum, ← Finset.mul_sum, Finset.sum_const, nsmul_eq_mul]

theorem convVar_eq_sum {d : ℕ} (s w : Fin d → ℕ) (t : (Fin d → ℕ) → ℝ)
    (o : Fin d → ℕ) :
    convVar s w t o =
      ∑ f ∈ winBox w, (padded s t (shiftIdx w o f) - convMu s w t o) ^ 2 := by
  have hsq : boxConv s w (fun p => t p * t p) o =
      ∑ f ∈ winBox w, (padded s t (shiftIdx w o f)) ^ 2 := by
    unfold boxConv
    exact Finset.sum_congr rfl fun f _ => by rw [padded_mul]; ring
  unfold convVar
  rw [hsq, sum_centered_sq, card_winBox]
  unfold boxConv
  ring

theorem convCov_eq_sum {d : ℕ} (s w : Fin d → ℕ) (t u : (Fin d → ℕ) → ℝ)
    (o : Fin d → ℕ) :
    convCov s w t u o =
      ∑ f ∈ winBox w, (padded s t (shiftIdx w o f) - convMu s w t o) *
        (padded s u (shiftIdx w o f) - convMu s w u o) := by
  have hmul : boxConv s w (fun p => t p * u p) o =
      ∑ f ∈ winBox w, padded s t (shiftIdx w o f) * padded s u (shiftIdx w o f) := by
    unfold boxConv
    exact Finset.sum_congr rfl fun f _ => padded_mul s t u _
  unfold convCov
  rw [hmul, sum_centered_mul, card_winBox]
  unfold boxConv
  ring

theorem convVar_nonneg {d : ℕ} (s w : Fin d → ℕ) (t : (Fin d → ℕ) → ℝ)
    (o : Fin d → ℕ) : 0 ≤ convVar s w t o := by
  rw [convVar_eq_sum]
  exact Finset.sum_nonneg fun f _ => sq_nonneg _

theorem convCov_sq_le {d : ℕ} (s w : Fin d → ℕ) (t u : (Fin d → ℕ) → ℝ)
    (o : Fin d → ℕ) :
    convCov s w t u o * convCov s w t u o ≤ convVar s w t o * convVar s w u o := by
  rw [convCov_eq_sum, convVar_eq_sum, convVar_eq_sum, ← sq]
  exact Finset.sum_mul_sq_le_sq_mul_sq (winBox w)
    (fun f => padded s t (shiftIdx w o f) - convMu s w t o)
    (fun f => padded s u (shiftIdx w o f) - convMu s w u o)

theorem lnccScore_nonneg {d : ℕ} (s w : Fin d → ℕ) (t u : (Fin d → ℕ) → ℝ)
    (o : Fin d → ℕ) : 0 ≤ lnccScore s w t u o := by
  unfold lnccScore
  apply div_nonneg (mul_self_nonneg _)
  have h := mul_nonneg (convVar_nonneg s w t o) (convVar_nonneg s w u o)
  nlinarith

theorem lnccScore_lt_one {d : ℕ} (s w : Fin d → ℕ) (t u : (Fin d → ℕ) → ℝ)
    (o : Fin d → ℕ) : lnccScore s w t u o < 1 := by
  unfold lnccScore
  have hvv := mul_nonneg (convVar_nonneg s w t o) (convVar_nonneg s w u o)
  rw [div_lt_one (by nlinarith)]
  nlinarith [convCov_sq_le s w t u o]

/-- Claim C4: for inputs of spatial rank 2 or 3, `LNCCLoss.forward` — local
sums by a unit-kernel box convolution with stride 1 and per-axis padding
`floor(window/2)`, covariance `Σ(ts) - μ_s Σt - μ_t Σs + μ_t μ_s N`,
variances analogously, per-voxel score `cov²/(var_t var_s + 1e-5)`, negated
mean over all voxels and batch samples — agrees with the formulation given by the spec
of the same algorithm. -/
theorem LNCCLoss_forward_matches_spec (d : ℕ) (s w : Fin d → ℕ) (N : ℕ)
    (tar src : ℕ → (Fin d → ℕ) → ℝ) (hd : d = 2 ∨ d = 3) :
    LNCCLoss_forward d s w N tar src = LNCC_spec d s w N tar src := by
  unfold LNCCLoss_forward LNCC_spec
  refine congrArg (fun z : ℝ => -(z / ((N * (outBox s w).card : ℕ) : ℝ))) ?_
  refine Finset.sum_congr rfl fun n _ => Finset.sum_congr rfl fun o _ => ?_
  unfold lnccScore lnccScore_spec convCov convVar convMu
  ring

/-- Witness for `LNCCLoss_forward_matches_spec` at rank 2 with the default
window size 7. -/
theorem LNCCLoss_forward_matches_spec_witness :
    ((2 : ℕ) = 2 ∨ (2 : ℕ) = 3) ∧
    LNCCLoss_forward 2 (fun _ => 4) (fun _ => 7) 1 (fun _ _ => 0) (fun _ _ => 0) =
      LNCC_spec 2 (fun _ => 4) (fun _ => 7) 1 (fun _ _ => 0) (fun _ _ => 0) :=
  ⟨Or.inl rfl, LNCCLoss_forward_matches_spec 2 (fun _ => 4) (fun _ => 7) 1
    (fun _ _ => 0) (fun _ _ => 0) (Or.inl rfl)⟩

/-- Claim C9: in exact real arithmetic the value returned by
`LNCCLoss.forward` on a non-empty input lies in `(-1, 0]`: every per-voxel
score is non-negative and, by the Cauchy-Schwarz inequality together with the
`+ 1e-5` in the denominator, strictly below 1. -/
theorem LNCCLoss_forward_range (d : ℕ) (s w : Fin d → ℕ) (N : ℕ)
    (tar src : ℕ → (Fin d → ℕ) → ℝ) (hN : 0 < N) (hs : ∀ i, 0 < s i) :
    -1 < LNCCLoss_forward d s w N tar src ∧ LNCCLoss_forward d s w N tar src ≤ 0 := by
  have hcard : 0 < (outBox s w).card := by
    unfold outBox
    rw [Fintype.card_piFinset]
    apply Finset.prod_pos
    intro i _
    rw [Finset.card_range]
    unfold outSize
    have := hs i
    omega
  have hobne : (outBox s w).Nonempty := Finset.card_pos.mp hcard
  have hinner_nonneg : ∀ n, (0 : ℝ) ≤ ∑ o ∈ outBox s w, lnccScore s w (tar n) (src n) o :=
    fun n => Finset.sum_nonneg fun o _ => lnccScore_nonneg s w (tar n) (src n) o
  have hinner_lt : ∀ n, (∑ o ∈ outBox s w, lnccScore s w (tar n) (src n) o) <
      ((outBox s w).card : ℝ) := by
    intro n
    calc (∑ o ∈ outBox s w, lnccScore s w (tar n) (src n) o)
        < ∑ _o ∈ outBox s w, (1 : ℝ) :=
          Finset.sum_lt_sum_of_nonempty hobne fun o _ => lnccScore_lt_one s w _ _ o
      _ = ((outBox s w).card : ℝ) := by rw [Finset.sum_const, nsmul_eq_mul, mul_one]
  have hT0 : (0 : ℝ) ≤ ∑ n ∈ Finset.range N, ∑ o ∈ outBox s w,
      lnccScore s w (tar n) (src n) o :=
    Finset.sum_nonneg fun n _ => hinner_nonneg n
  have hTlt : (∑ n ∈ Finset.range N, ∑ o ∈ outBox s w,
      lnccScore s w (tar n) (src n) o) < (N : ℝ) * ((outBox s w).card : ℝ) := by
    calc (∑ n ∈ Finset.range N, ∑ o ∈ outBox s w, lnccScore s w (tar n) (src n) o)
        < ∑ _n ∈ Finset.range N, ((outBox s w).card : ℝ) :=
          Finset.sum_lt_sum_of_nonempty (Finset.nonempty_range_iff.mpr (by omega))
            fun n _ => hinner_lt n
      _ = (N : ℝ) * ((outBox s w).card : ℝ) := by
          rw [Finset.sum_const, nsmul_eq_mul, Finset.card_range]
  have hden : (0 : ℝ) < ((N * (outBox s w).card : ℕ) : ℝ) := by
    have : 0 < N * (outBox s w).card := Nat.mul_pos hN hcard
    exact_mod_cast this
  have hdeneq : ((N * (outBox s w).card : ℕ) : ℝ) = (N : ℝ) * ((outBox s w).card : ℝ) := by
    push_cast
    ring
  unfold LNCCLoss_forward
  constructor
  · have hq : (∑ n ∈ Finset.range N, ∑ o ∈ outBox s w,
        lnccScore s w (tar n) (src n) o) / ((N * (outBox s w).card : ℕ) : ℝ) < 1 := by
      rw [div_lt_one hden, hdeneq]
      exact hTlt
    linarith
  · have hq : (0 : ℝ) ≤ (∑ n ∈ Finset.range N, ∑ o ∈ outBox s w,
        lnccScore s w (tar n) (src n) o) / ((N * (outBox s w).card : ℕ) : ℝ) :=
      div_nonneg hT0 hden.le
    linarith

/-- Witness for `LNCCLoss_forward_range` at rank 2, sizes 4, window 7, one
batch sample. -/
theorem LNCCLoss_forward_range_witness :
    0 < 1 ∧ (∀ i : Fin 2, 0 < (fun _ : Fin 2 => 4) i) ∧
    (-1 < LNCCLoss_forward 2 (fun _ => 4) (fun _ => 7) 1 (fun _ _ => 0) (fun _ _ => 0) ∧
      LNCCLoss_forward 2 (fun _ => 4) (fun _ => 7) 1 (fun _ _ => 0) (fun _ _ => 0) ≤ 0) :=
  ⟨Nat.one_pos, fun i => by norm_num,
    LNCCLoss_forward_range 2 (fun _ => 4) (fun _ => 7) 1 (fun _ _ => 0) (fun _ _ => 0)
      Nat.one_pos (fun i => by norm_num)⟩
